import Mathlib

/-!
Verification of the conversion and rounding engine of `base-formatter`
(`src/base-formatter.ts`, class `BaseConverter`).

The decimal-arithmetic collaborator (`decimal.js`) is modelled exactly, as the
specification requires: decimal values are rationals, digit values are
integers, and `floor(ln value / ln base)` is the exact integer logarithm
`Int.log`.  A `Decimal` input value is modelled as a sign flag together with a
non-negative magnitude so that negative zero (which decimal.js represents) is
expressible.
-/

namespace BaseFormatter

/-- The ten rounding modes (`RoundingMode` in `base-formatter.ts`). -/
inductive RoundingMode : Type
  | ceil | floor | expand | trunc
  | halfCeil | halfFloor | halfExpand | halfTrunc
  | halfEven | halfOdd
  deriving DecidableEq

/-- The three notations (type `Notation` in `base-formatter.ts`): `standard`,
`scientific`, `engineering`. -/
inductive Notation : Type
  | standard | scientific | engineering
  deriving DecidableEq

/-- The per-call conversion properties of `BaseConverter` (field `notation` of
the source is called `notationMode` here because `notation` is reserved in
Lean).  `maximumFractionLength` is `number | null` in the source. -/
structure ConverterProps where
  roundingMode : RoundingMode
  precision : ℕ
  maximumFractionLength : Option ℤ
  notationMode : Notation
  deriving DecidableEq

/-- A `Decimal` input value: decimal.js keeps a sign (including on zero) and a
magnitude.  `decVal.isNegative()` is `isNeg`, `decVal.absoluteValue()` is
`abs`, and `decVal.isZero()` is `abs = 0`.  A rational `v` is represented by
`⟨decide (v < 0), |v|⟩`; negative zero is `⟨true, 0⟩`. -/
structure DecInput where
  isNeg : Bool
  abs : ℚ
  deriving DecidableEq

/-- The `NumeralOutput` record returned by `BaseConverter.encode`. -/
structure NumeralOutput where
  isNegative : Bool
  integer : List ℤ
  fraction : List ℤ
  exponent : ℤ
  deriving DecidableEq

/-- Loop body of `convertIntegerToBase`.  The source iterates
`while (value ≥ base) { push value % base; value := ⌊value / base⌋ }` and then
pushes the final quotient when it is positive or when no iteration ran.  The
fuel argument only bounds the iteration count; `fuel = value` suffices because
the quotient strictly decreases while `value ≥ base ≥ 2`, so the fuel-0 branch
is unreachable in every use. -/
def convertIntegerToBase.go (base : ℕ) : ℕ → ℕ → List ℤ
  | 0, value => [(value : ℤ)]
  | fuel + 1, value =>
    if value < base then [(value : ℤ)]
    else convertIntegerToBase.go base fuel (value / base) ++ [((value % base : ℕ) : ℤ)]

/-- `convertIntegerToBase` of the source: most-significant digit first.  The
source receives a non-negative integer-valued `Decimal` (the floor of the
scaled absolute value), modelled as a natural number. -/
def convertIntegerToBase (value : ℕ) (base : ℕ) : List ℤ :=
  convertIntegerToBase.go base value value

/-- Loop body of `convertFractionToBase`: up to `maxLength` iterations of
`value := value * base; digit := ⌊value⌋; value := value - digit`, stopping
early when `value` is exactly zero. -/
def convertFractionToBase.go (base : ℕ) : ℚ → ℕ → List ℤ
  | _, 0 => []
  | value, n + 1 =>
    if value = 0 then []
    else
      let v := value * (base : ℚ)
      let baseDigit : ℤ := ⌊v⌋
      baseDigit :: convertFractionToBase.go base (v - (baseDigit : ℚ)) n

/-- `convertFractionToBase` of the source (`prec = maximumLength.toNumber()`;
a non-positive maximum runs zero iterations, matching the `i < prec` guard). -/
def convertFractionToBase (value : ℚ) (base : ℕ) (maximumLength : ℤ) : List ℤ :=
  convertFractionToBase.go base value maximumLength.toNat

/-- Fuel-bounded `Nat.log` (greatest `k` with `b ^ k ≤ n`, for `1 < b`); the
fuel only bounds the iteration count and `fuel = n` always suffices since the
quotient strictly decreases.  Written this way so that the kernel can
evaluate it (`Nat.log` itself is defined by well-founded recursion); it is
proved equal to `Nat.log` below. -/
def intLogAux (b : ℕ) : ℕ → ℕ → ℕ
  | 0, _ => 0
  | fuel + 1, n => if 1 < b ∧ b ≤ n then intLogAux b fuel (n / b) + 1 else 0

/-- Fuel-bounded `Nat.clog` (least `k` with `n ≤ b ^ k`, for `1 < b`), proved
equal to `Nat.clog` below. -/
def intClogAux (b : ℕ) : ℕ → ℕ → ℕ
  | 0, _ => 0
  | fuel + 1, n => if 1 < b ∧ 1 < n then intClogAux b fuel ((n + b - 1) / b) + 1 else 0

/-- Kernel-computable integer logarithm of a rational, shaped exactly like
`Int.log` (and proved equal to it below): `Nat.log b ⌊r⌋₊` for `r ≥ 1`, and
`-Nat.clog b ⌈r⁻¹⌉₊` otherwise. -/
def ratLog (b : ℕ) (r : ℚ) : ℤ :=
  if 1 ≤ r then (intLogAux b ⌊r⌋₊ ⌊r⌋₊ : ℤ) else -(intClogAux b ⌈r⁻¹⌉₊ ⌈r⁻¹⌉₊ : ℤ)

/-- `BaseConverter.calculateExponent`: `0` for a zero value, otherwise
`⌊ln value / ln base⌋`, or `⌊ln value / ln (base³)⌋ * 3` in engineering
notation.  With exact arithmetic the floored quotient of natural logarithms is
the integer logarithm (`ratLog` here, proved equal to `Int.log` and to
`⌊Real.logb base value⌋` below). -/
def calculateExponent (base : ℕ) (value : ℚ) (isEngineering : Bool) : ℤ :=
  if value = 0 then 0
  else if isEngineering then ratLog (base ^ 3) value * 3 else ratLog base value

/-- The `values[values[i-1] === null ? i-2 : i-1]` lookup performed by the
`halfEven`/`halfOdd` rounding modes, together with the JavaScript truthiness
test `if (value)`: `prev1`/`prev2` are `values[i-1]`/`values[i-2]`, where the
outer `none` is an out-of-bounds access (`undefined`, which is falsy and is
not `=== null`) and the inner `none` is the `null` radix sentinel (falsy). -/
def adjacentLookup (prev1 prev2 : Option (Option ℤ)) : Option ℤ :=
  match prev1 with
  | some none =>
    match prev2 with
    | some (some d) => some d
    | _ => none
  | some (some d) => some d
  | none => none

/-- The rounding-mode decision functions (`this.roundingModes` built in the
`BaseConverter` constructor), with `halfBase = base / 2` computed exactly.
`value` is the digit the decision is taken on, `prev1`/`prev2` are the array
entries at `i-1`/`i-2` as in `adjacentLookup`. -/
def roundingModeCarry (base : ℕ) (mode : RoundingMode) (value : ℤ) (isNegative : Bool)
    (prev1 prev2 : Option (Option ℤ)) : Bool :=
  let halfBase : ℚ := (base : ℚ) / 2
  match mode with
  | .expand => decide (0 < value)
  | .trunc => false
  | .ceil => !isNegative && decide (0 < value)
  | .floor => isNegative && decide (0 < value)
  | .halfExpand => decide (halfBase ≤ (value : ℚ))
  | .halfTrunc => decide (halfBase < (value : ℚ))
  | .halfCeil => if !isNegative then decide (halfBase ≤ (value : ℚ)) else decide (halfBase < (value : ℚ))
  | .halfFloor => if isNegative then decide (halfBase ≤ (value : ℚ)) else decide (halfBase < (value : ℚ))
  | .halfEven =>
    if (value : ℚ) = halfBase then
      match adjacentLookup prev1 prev2 with
      | some d => decide (d % 2 = 1)
      | none => decide (halfBase < (value : ℚ))
    else decide (halfBase < (value : ℚ))
  | .halfOdd =>
    if (value : ℚ) = halfBase then
      match adjacentLookup prev1 prev2 with
      | some d => decide (d % 2 = 0)
      | none => decide (halfBase < (value : ℚ))
    else decide (halfBase < (value : ℚ))

/-- One visited digit of the rounding pass (lines `value = baseVal[i]` through
`if (isRemainder) value = zero` of the source): the pending carry is added and
absorbed or re-raised, then, on a discarded position with no pending carry,
the rounding-mode decision can raise the carry, in which case the digit is
zeroed.  Returns the written digit together with the new carry flag. -/
def roundStep (base : ℕ) (mode : RoundingMode) (isNegative : Bool) (isRounded : Bool)
    (v0 : ℤ) (isRemainder : Bool) (prev1 prev2 : Option (Option ℤ)) : ℤ × Bool :=
  let v1 : ℤ := if isRemainder then v0 + 1 else v0
  let isR1 : Bool := if isRemainder then decide ((base : ℤ) ≤ v1) else isRemainder
  let isR2 : Bool :=
    if !isR1 && isRounded then
      if roundingModeCarry base mode v1 isNegative prev1 prev2 then true else isR1
    else isR1
  (if isR2 then 0 else v1, isR2)

/-- The backward rounding pass of `BaseConverter.encode`
(`for (let i = baseVal.length-1; i >= 0; i--) { ... }`).

The first list argument is the reversed not-yet-visited prefix
`baseVal[0..i]` (head = entry at the current index `i = rest.length`); the
second is the already-visited suffix (entries at indices `> i` that survived
pops), in array order.  A `pop` removes the last entry of the whole array,
i.e. the last entry of `some v2 :: done`; `break` returns the untouched
prefix together with the visited suffix.  Entries at indices below `i` are
unmodified when the decision function reads `values[i-1]`/`values[i-2]`, so
passing `rest.head?`/`rest.get? 1` is exact. -/
def roundLoop (base : ℕ) (mode : RoundingMode) (isNegative : Bool) (intLen : ℕ)
    (roundingIndex : ℤ) :
    List (Option ℤ) → List (Option ℤ) → Bool → Bool → List (Option ℤ) × Bool
  | [], done, isRemainder, _ => (done, isRemainder)
  | none :: rest, done, isRemainder, onlyZeros =>
      roundLoop base mode isNegative intLen roundingIndex rest (none :: done) isRemainder onlyZeros
  | some v0 :: rest, done, isRemainder, onlyZeros =>
      let i : ℕ := rest.length
      let isRounded : Bool := decide (roundingIndex < (i : ℤ))
      let s := roundStep base mode isNegative isRounded v0 isRemainder rest.head? (rest.get? 1)
      let oz2 : Bool := if isRounded then true else if s.1 ≠ 0 then false else onlyZeros
      if oz2 && decide (intLen < i) then
        roundLoop base mode isNegative intLen roundingIndex rest ((some s.1 :: done).dropLast) s.2 oz2
      else if !s.2 then (rest.reverse ++ some s.1 :: done, s.2)
      else roundLoop base mode isNegative intLen roundingIndex rest (some s.1 :: done) s.2 oz2

/-- `makeExponential = props.notation !== 'standard' && exponent != 0`. -/
def makeExponential (base : ℕ) (props : ConverterProps) (absVal : ℚ) : Bool :=
  !(props.notationMode == Notation.standard)
    && !(calculateExponent base absVal (props.notationMode == Notation.engineering) == 0)

/-- The exponent computed at the start of `encode`. -/
def encodeExponent (base : ℕ) (props : ConverterProps) (absVal : ℚ) : ℤ :=
  calculateExponent base absVal (props.notationMode == Notation.engineering)

/-- `expValue`: the absolute value scaled by `base ^ exponent` when a
non-standard notation produced a non-zero exponent. -/
def expValue (base : ℕ) (props : ConverterProps) (absVal : ℚ) : ℚ :=
  if makeExponential base props absVal then
    absVal / (base : ℚ) ^ encodeExponent base props absVal
  else absVal

/-- `precisionExponent = makeExponential ? exponent : 0`. -/
def precisionExponent (base : ℕ) (props : ConverterProps) (absVal : ℚ) : ℤ :=
  if makeExponential base props absVal then encodeExponent base props absVal else 0

/-- `maxFractLengthByPrecision`: the precision, reduced by a positive
precision exponent. -/
def maxFractLengthByPrecision (base : ℕ) (props : ConverterProps) (absVal : ℚ) : ℤ :=
  if 0 < precisionExponent base props absVal then
    (props.precision : ℤ) - precisionExponent base props absVal
  else (props.precision : ℤ)

/-- `maxFractionalLength`: the explicit maximum fraction length capped by
`maxFractLengthByPrecision`, or the latter alone when none was given. -/
def maxFractionalLength (base : ℕ) (props : ConverterProps) (absVal : ℚ) : ℤ :=
  match props.maximumFractionLength with
  | some m => min m (maxFractLengthByPrecision base props absVal)
  | none => maxFractLengthByPrecision base props absVal

/-- The integer-part digits `baseIntVal = convertIntegerToBase(expValue.floor(), base)`. -/
def baseIntVal (base : ℕ) (props : ConverterProps) (absVal : ℚ) : List ℤ :=
  convertIntegerToBase (⌊expValue base props absVal⌋.toNat) base

/-- The fraction-part digits
`baseFractVal = convertFractionToBase(expValue - intVal, base, maxFractLengthByPrecision)`. -/
def baseFractVal (base : ℕ) (props : ConverterProps) (absVal : ℚ) : List ℤ :=
  convertFractionToBase (expValue base props absVal - ⌊expValue base props absVal⌋)
    base (maxFractLengthByPrecision base props absVal)

/-- The working array `[...baseIntVal, null, ...baseFractVal]`. -/
def baseValArr (base : ℕ) (props : ConverterProps) (absVal : ℚ) : List (Option ℤ) :=
  (baseIntVal base props absVal).map some ++ none :: (baseFractVal base props absVal).map some

/-- `roundingIndex = maxFractionalLength + baseIntVal.length` (the last index
that is kept). -/
def roundingIndex (base : ℕ) (props : ConverterProps) (absVal : ℚ) : ℤ :=
  maxFractionalLength base props absVal + (baseIntVal base props absVal).length

/-- The rounding pass applied to the working array, returning the surviving
array together with the pending-carry flag. -/
def encodeArray (base : ℕ) (props : ConverterProps) (decVal : DecInput) :
    List (Option ℤ) × Bool :=
  roundLoop base props.roundingMode decVal.isNeg (baseIntVal base props decVal.abs).length
    (roundingIndex base props decVal.abs)
    (baseValArr base props decVal.abs).reverse [] false true

/-- `baseVal.every(v => v === null || v.isZero())`. -/
def isAllZero (l : List (Option ℤ)) : Bool :=
  l.all fun v => v == none || v == some 0

/-- `BaseConverter.encode`: the rounded array (with a leading `1` prepended on
carry overflow) is split at the `null` sentinel into integer and fraction
digits; the negative sign is cleared when a non-zero value rounded to all
zeros. -/
def encode (base : ℕ) (props : ConverterProps) (decVal : DecInput) : NumeralOutput :=
  let res := encodeArray base props decVal
  let baseVal2 := if res.2 then some 1 :: res.1 else res.1
  let nullPos := baseVal2.findIdx fun v => v == none
  let roundedIntVal := (baseVal2.take nullPos).filterMap id
  let roundedFractVal := (baseVal2.drop (nullPos + 1)).filterMap id
  let isNegative2 :=
    if decVal.abs ≠ 0 ∧ isAllZero baseVal2 = true then false else decVal.isNeg
  { isNegative := isNegative2
    integer := roundedIntVal
    fraction := roundedFractVal
    exponent :=
      if makeExponential base props decVal.abs then encodeExponent base props decVal.abs else 0 }

/-- `BaseConverter.decode`: `Σ digit[i] * base ^ (integerLength - 1 - i)` over
the concatenated digits, scaled by `base ^ exponent`, with the sign applied. -/
def decode (base : ℕ) (encodedValue : NumeralOutput) : ℚ :=
  let largestExponent : ℤ := (encodedValue.integer.length : ℤ) - 1
  ((List.mapIdx (fun (i : ℕ) (c : ℤ) => (c : ℚ) * (base : ℚ) ^ (largestExponent - (i : ℤ)))
      (encodedValue.integer ++ encodedValue.fraction)).sum)
    * (base : ℚ) ^ encodedValue.exponent
    * (if encodedValue.isNegative then -1 else 1)

/-- The default conversion properties of a `BaseConverter` instance:
`halfExpand`, precision 32, unlimited fraction length, standard notation. -/
def defaultProps : ConverterProps :=
  { roundingMode := .halfExpand
    precision := 32
    maximumFractionLength := none
    notationMode := .standard }

/-- The `DecInput` denoted by a rational number. -/
def ratInput (v : ℚ) : DecInput := ⟨decide (v < 0), |v|⟩

/-- The longest all-zero suffix of a digit list, removed: this is what the
backward pass leaves of the fraction digits when nothing is discarded. -/
def dropTrailingZeros (l : List ℤ) : List ℤ :=
  (l.reverse.dropWhile (· == 0)).reverse

/-- Modelled from the spec: "Precision: maximum count of significant digits
retained across integer and fraction parts" — the number of digits of the
output once leading zeros are dropped. -/
def sigDigitCount (n : NumeralOutput) : ℕ :=
  ((n.integer ++ n.fraction).dropWhile (· == 0)).length

/-- Modelled from the spec: the rounding-mode decision table of §4.3, carry
conditions stated over the discarded digit, the sign and the adjacent kept
digit (`B/2 = base / 2`). -/
def specCarry (base : ℕ) (mode : RoundingMode) (digit : ℤ) (isNegative : Bool)
    (adjacentDigit : ℤ) : Bool :=
  let half : ℚ := (base : ℚ) / 2
  match mode with
  | .expand => decide (0 < digit)
  | .trunc => false
  | .ceil => !isNegative && decide (0 < digit)
  | .floor => isNegative && decide (0 < digit)
  | .halfExpand => decide (half ≤ (digit : ℚ))
  | .halfTrunc => decide (half < (digit : ℚ))
  | .halfCeil => if !isNegative then decide (half ≤ (digit : ℚ)) else decide (half < (digit : ℚ))
  | .halfFloor => if isNegative then decide (half ≤ (digit : ℚ)) else decide (half < (digit : ℚ))
  | .halfEven => decide (half < (digit : ℚ) ∨ ((digit : ℚ) = half ∧ Odd adjacentDigit))
  | .halfOdd => decide (half < (digit : ℚ) ∨ ((digit : ℚ) = half ∧ Even adjacentDigit))


/-! ## Positional value of a digit list

`decodeAux base e l` is the value `Σ l[j] * base ^ (e - j)`: the positional
value of the digit list `l` whose leading digit sits at exponent `e`.  The sum
computed by `decode` is exactly `decodeAux base (integerLength - 1)` of the
concatenated digits. -/

def decodeAux (base : ℕ) : ℤ → List ℤ → ℚ
  | _, [] => 0
  | e, d :: ds => (d : ℚ) * (base : ℚ) ^ e + decodeAux base (e - 1) ds

@[simp] theorem decodeAux_nil (base : ℕ) (e : ℤ) : decodeAux base e [] = 0 := rfl

@[simp] theorem decodeAux_cons (base : ℕ) (e : ℤ) (d : ℤ) (ds : List ℤ) :
    decodeAux base e (d :: ds) = (d : ℚ) * (base : ℚ) ^ e + decodeAux base (e - 1) ds := rfl

theorem decodeAux_append (base : ℕ) (e : ℤ) (xs ys : List ℤ) :
    decodeAux base e (xs ++ ys)
      = decodeAux base e xs + decodeAux base (e - xs.length) ys := by
  induction xs generalizing e with
  | nil => simp
  | cons x xs ih =>
    simp only [List.cons_append, decodeAux_cons, ih (e - 1), List.length_cons]
    have h : e - 1 - (xs.length : ℤ) = e - ((xs.length : ℤ) + 1) := by ring
    rw [h]
    push_cast
    ring

theorem decodeAux_all_zero (base : ℕ) (e : ℤ) (xs : List ℤ)
    (h : ∀ d ∈ xs, d = 0) : decodeAux base e xs = 0 := by
  induction xs generalizing e with
  | nil => simp
  | cons x xs ih =>
    have hx : x = 0 := h x (by simp)
    simp [hx, ih (e - 1) fun d hd => h d (by simp [hd])]

theorem decodeAux_shift (base : ℕ) (hb : (base : ℚ) ≠ 0) (e : ℤ) (xs : List ℤ) :
    decodeAux base e xs = (base : ℚ) * decodeAux base (e - 1) xs := by
  induction xs generalizing e with
  | nil => simp
  | cons x l ih =>
    simp only [decodeAux_cons]
    have he : (base : ℚ) ^ e = (base : ℚ) ^ (e - 1) * base := by
      rw [← zpow_add_one₀ hb]
      congr 1
      ring
    rw [ih (e - 1), he]
    ring

theorem sum_mapIdx_eq_decodeAux (base : ℕ) (e : ℤ) (l : List ℤ) :
    (List.mapIdx (fun (i : ℕ) (c : ℤ) => (c : ℚ) * (base : ℚ) ^ (e - (i : ℤ))) l).sum
      = decodeAux base e l := by
  induction l using List.reverseRecOn with
  | nil => simp [List.mapIdx, List.mapIdx.go]
  | append_singleton xs d ih =>
    rw [List.mapIdx_append_one, List.sum_append, ih, decodeAux_append]
    simp

/-- `decode` in terms of `decodeAux`. -/
theorem decode_eq_decodeAux (base : ℕ) (n : NumeralOutput) :
    decode base n
      = decodeAux base ((n.integer.length : ℤ) - 1) (n.integer ++ n.fraction)
        * (base : ℚ) ^ n.exponent * (if n.isNegative then -1 else 1) := by
  show (List.mapIdx (fun (i : ℕ) (c : ℤ) =>
        (c : ℚ) * (base : ℚ) ^ (((n.integer.length : ℤ) - 1) - (i : ℤ)))
      (n.integer ++ n.fraction)).sum * (base : ℚ) ^ n.exponent
      * (if n.isNegative then -1 else 1) = _
  rw [sum_mapIdx_eq_decodeAux]

/-! ## Correctness of `convertIntegerToBase` -/

theorem convIntGo_spec (base : ℕ) (hb : 2 ≤ base) :
    ∀ fuel value : ℕ, value ≤ fuel →
      convertIntegerToBase.go base fuel value ≠ []
      ∧ (∀ d ∈ convertIntegerToBase.go base fuel value, 0 ≤ d ∧ d < base)
      ∧ (convertIntegerToBase.go base fuel value).foldl
          (fun a d => a * (base : ℤ) + d) 0 = (value : ℤ) := by
  intro fuel
  induction fuel with
  | zero =>
    intro value hv
    have hv0 : value = 0 := by omega
    subst hv0
    refine ⟨by simp [convertIntegerToBase.go], ?_, by simp [convertIntegerToBase.go]⟩
    intro d hd
    simp only [convertIntegerToBase.go, List.mem_singleton] at hd
    subst hd
    exact ⟨le_rfl, by exact_mod_cast Nat.lt_of_lt_of_le (by omega) hb⟩
  | succ fuel ih =>
    intro value hv
    by_cases hlt : value < base
    · refine ⟨by simp [convertIntegerToBase.go, hlt], ?_, by simp [convertIntegerToBase.go, hlt]⟩
      intro d hd
      simp only [convertIntegerToBase.go, if_pos hlt, List.mem_singleton] at hd
      subst hd
      exact ⟨Int.ofNat_nonneg value, by exact_mod_cast hlt⟩
    · push_neg at hlt
      have hbpos : 0 < base := by omega
      have hq : value / base ≤ fuel := by
        have := Nat.div_lt_self (show 0 < value by omega) (show 1 < base by omega)
        omega
      obtain ⟨hne, hmem, hfold⟩ := ih (value / base) hq
      have hgo : convertIntegerToBase.go base (fuel + 1) value
          = convertIntegerToBase.go base fuel (value / base) ++ [((value % base : ℕ) : ℤ)] := by
        simp [convertIntegerToBase.go, Nat.not_lt.mpr hlt]
      refine ⟨by simp [hgo], ?_, ?_⟩
      · intro d hd
        rw [hgo, List.mem_append, List.mem_singleton] at hd
        rcases hd with hd | hd
        · exact hmem d hd
        · subst hd
          exact ⟨Int.ofNat_nonneg _, by exact_mod_cast Nat.mod_lt value hbpos⟩
      · rw [hgo, List.foldl_append, hfold]
        simp only [List.foldl_cons, List.foldl_nil]
        rw [mul_comm]
        exact_mod_cast Nat.div_add_mod value base

theorem convertIntegerToBase_spec (base : ℕ) (hb : 2 ≤ base) (value : ℕ) :
    convertIntegerToBase value base ≠ []
    ∧ (∀ d ∈ convertIntegerToBase value base, 0 ≤ d ∧ d < base)
    ∧ (convertIntegerToBase value base).foldl
        (fun a d => a * (base : ℤ) + d) 0 = (value : ℤ) :=
  convIntGo_spec base hb value value le_rfl

/-- The positional value of the integer digits recovers the folded value. -/
theorem decodeAux_eq_foldl (base : ℕ) (hb : 2 ≤ base) (A : List ℤ) :
    decodeAux base ((A.length : ℤ) - 1) A
      = ((A.foldl (fun a d => a * (base : ℤ) + d) 0 : ℤ) : ℚ) := by
  have hb0 : (base : ℚ) ≠ 0 := Nat.cast_ne_zero.mpr (by omega)
  induction A using List.reverseRecOn with
  | nil => simp
  | append_singleton xs d ih =>
    rw [decodeAux_append]
    have h1 : (((xs ++ [d]).length : ℕ) : ℤ) - 1 = (xs.length : ℤ) := by simp
    rw [h1, sub_self]
    simp only [decodeAux_cons, decodeAux_nil, zpow_zero, List.foldl_append, List.foldl_cons,
      List.foldl_nil]
    rw [decodeAux_shift base hb0 (xs.length : ℤ) xs, ih]
    push_cast
    ring

/-! ## Correctness of `convertFractionToBase`

Each iteration peels off the leading base-`b` fraction digit; the produced
digits are in range, at most `maxLength` digits are produced, the value equals
the positional value of the digits plus a remainder scaled below the last
digit, and the remainder is zero when the loop stopped early. -/

theorem convFractGo_spec (base : ℕ) (hb : 2 ≤ base) :
    ∀ (fuel : ℕ) (v : ℚ), 0 ≤ v → v < 1 →
      (∀ d ∈ convertFractionToBase.go base v fuel, 0 ≤ d ∧ d < base)
      ∧ (convertFractionToBase.go base v fuel).length ≤ fuel
      ∧ ∃ rem : ℚ, 0 ≤ rem ∧ rem < 1
          ∧ v = decodeAux base (-1) (convertFractionToBase.go base v fuel)
              + rem * (base : ℚ) ^ (-((convertFractionToBase.go base v fuel).length : ℤ))
          ∧ ((convertFractionToBase.go base v fuel).length < fuel → rem = 0) := by
  have hb0 : (base : ℚ) ≠ 0 := Nat.cast_ne_zero.mpr (by omega)
  have hbq : (0 : ℚ) < base := by
    have : (0 : ℕ) < base := by omega
    exact_mod_cast this
  intro fuel
  induction fuel with
  | zero =>
    intro v hv0 hv1
    refine ⟨by simp [convertFractionToBase.go], by simp [convertFractionToBase.go], v, hv0, hv1,
      ?_, by simp⟩
    simp [convertFractionToBase.go]
  | succ fuel ih =>
    intro v hv0 hv1
    by_cases hz : v = 0
    · subst hz
      refine ⟨by simp [convertFractionToBase.go], by simp [convertFractionToBase.go], 0,
        le_rfl, by norm_num, ?_, fun _ => rfl⟩
      simp [convertFractionToBase.go]
    · have hgo : convertFractionToBase.go base v (fuel + 1)
          = ⌊v * (base : ℚ)⌋ :: convertFractionToBase.go base
              (v * (base : ℚ) - (⌊v * (base : ℚ)⌋ : ℚ)) fuel := by
        simp only [convertFractionToBase.go, if_neg hz]
      have hd0 : 0 ≤ ⌊v * (base : ℚ)⌋ := Int.floor_nonneg.mpr (mul_nonneg hv0 hbq.le)
      have hdb : ⌊v * (base : ℚ)⌋ < base := by
        rw [Int.floor_lt]
        push_cast
        exact mul_lt_of_lt_one_left hbq hv1
      have hv'0 : 0 ≤ v * (base : ℚ) - (⌊v * (base : ℚ)⌋ : ℚ) := by
        have := Int.floor_le (v * (base : ℚ))
        linarith
      have hv'1 : v * (base : ℚ) - (⌊v * (base : ℚ)⌋ : ℚ) < 1 := by
        have := Int.lt_floor_add_one (v * (base : ℚ))
        linarith
      obtain ⟨hmem, hlen, rem, hr0, hr1, hsum, hterm⟩ :=
        ih (v * (base : ℚ) - (⌊v * (base : ℚ)⌋ : ℚ)) hv'0 hv'1
      set d : ℤ := ⌊v * (base : ℚ)⌋ with hd
      set tail := convertFractionToBase.go base (v * (base : ℚ) - (d : ℚ)) fuel with htail
      refine ⟨?_, ?_, rem, hr0, hr1, ?_, ?_⟩
      · intro x hx
        rw [hgo, List.mem_cons] at hx
        rcases hx with hx | hx
        · subst hx
          exact ⟨hd0, hdb⟩
        · exact hmem x hx
      · rw [hgo]
        simpa using hlen
      · rw [hgo]
        have hlen2 : -(((d :: tail).length : ℕ) : ℤ) = -((tail.length : ℤ) + 1) := by
          simp
        rw [hlen2]
        have hshift' : decodeAux base (-1) tail = (base : ℚ) * decodeAux base (-1 - 1) tail :=
          decodeAux_shift base hb0 (-1) tail
        apply mul_left_cancel₀ hb0
        have e1 : (base : ℚ) * (base : ℚ) ^ (-1 : ℤ) = 1 := by
          rw [zpow_neg_one]
          field_simp
        have e2 : (base : ℚ) * (base : ℚ) ^ (-((tail.length : ℤ) + 1))
            = (base : ℚ) ^ (-(tail.length : ℤ)) := by
          rw [mul_comm, ← zpow_add_one₀ hb0]
          congr 1
          ring
        calc (base : ℚ) * v = (d : ℚ) + (v * (base : ℚ) - (d : ℚ)) := by ring
          _ = (d : ℚ) + (decodeAux base (-1) tail
                + rem * (base : ℚ) ^ (-(tail.length : ℤ))) := by rw [← hsum]
          _ = (d : ℚ) + ((base : ℚ) * decodeAux base (-1 - 1) tail
                + rem * (base : ℚ) ^ (-(tail.length : ℤ))) := by rw [hshift']
          _ = (base : ℚ) * ((d : ℚ) * (base : ℚ) ^ (-1 : ℤ) + decodeAux base (-1 - 1) tail
                + rem * (base : ℚ) ^ (-((tail.length : ℤ) + 1))) := by
              linear_combination (-(d : ℚ)) * e1 - rem * e2
          _ = (base : ℚ) * (decodeAux base (-1) (d :: tail)
                + rem * (base : ℚ) ^ (-((tail.length : ℤ) + 1))) := by rw [decodeAux_cons]
      · intro hlt
        rw [hgo] at hlt
        simp only [List.length_cons] at hlt
        exact hterm (by omega)

theorem convertFractionToBase_spec (base : ℕ) (hb : 2 ≤ base) (v : ℚ) (maxLength : ℤ)
    (hv0 : 0 ≤ v) (hv1 : v < 1) :
    (∀ d ∈ convertFractionToBase v base maxLength, 0 ≤ d ∧ d < base)
    ∧ (convertFractionToBase v base maxLength).length ≤ maxLength.toNat
    ∧ ∃ rem : ℚ, 0 ≤ rem ∧ rem < 1
        ∧ v = decodeAux base (-1) (convertFractionToBase v base maxLength)
            + rem * (base : ℚ) ^ (-((convertFractionToBase v base maxLength).length : ℤ))
        ∧ ((convertFractionToBase v base maxLength).length < maxLength.toNat → rem = 0) :=
  convFractGo_spec base hb maxLength.toNat v hv0 hv1

/-! ## Structure of the rounding pass -/

/-- A visited digit stays within `[0, base)`: an absorbed carry that reaches
`base` re-raises the carry and zeroes the digit. -/
theorem roundStep_range (base : ℕ) (mode : RoundingMode) (neg isRounded : Bool)
    (v0 : ℤ) (isR : Bool) (p1 p2 : Option (Option ℤ)) (hb : 1 ≤ base)
    (h0 : 0 ≤ v0) (h1 : v0 < base) :
    0 ≤ (roundStep base mode neg isRounded v0 isR p1 p2).1
    ∧ (roundStep base mode neg isRounded v0 isR p1 p2).1 < base := by
  have hbz : (0 : ℤ) < base := by exact_mod_cast hb
  unfold roundStep
  cases isR with
  | false =>
    simp only [Bool.false_eq_true, if_false, Bool.not_false, Bool.true_and]
    split
    · split <;> simp <;> omega
    · simp
      omega
  | true =>
    simp only [if_true]
    by_cases hc : (base : ℤ) ≤ v0 + 1
    · simp [hc]
      omega
    · push_neg at hc
      simp only [decide_eq_true_eq, hc, not_le.mpr hc, decide_eq_false_iff_not, not_le,
        Bool.not_false]
      split
      · split <;> simp <;> omega
      · simp
        omega

/-- Appending one written digit in front of the visited suffix. -/
theorem map_some_snoc (A : List ℤ) (x : ℤ) (done : List (Option ℤ)) :
    (A ++ [x]).map some ++ done = A.map some ++ some x :: done := by
  rw [List.map_append, List.map_cons, List.map_nil, List.append_assoc, List.singleton_append]

/-- Processing the reversed integer digits (all positions at indices below
`intLen`): no pop can occur, so the pass either breaks or visits every digit,
and the integer region keeps its length, appended in front of the visited
suffix. -/
theorem roundLoop_intPhase (base : ℕ) (mode : RoundingMode) (neg : Bool) (intLen : ℕ)
    (RI : ℤ) (hb : 1 ≤ base) :
    ∀ (revA : List ℤ) (done : List (Option ℤ)) (isR oz : Bool),
      revA.length ≤ intLen →
      (∀ d ∈ revA, 0 ≤ d ∧ d < (base : ℤ)) →
      ∃ (A2 : List ℤ) (rem : Bool),
        roundLoop base mode neg intLen RI (revA.map some) done isR oz
          = (A2.map some ++ done, rem)
        ∧ A2.length = revA.length
        ∧ (∀ d ∈ A2, 0 ≤ d ∧ d < (base : ℤ)) := by
  intro revA
  induction revA with
  | nil =>
    intro done isR oz _ _
    exact ⟨[], isR, by simp [roundLoop], rfl, by simp⟩
  | cons v0 rest ih =>
    intro done isR oz hlen hrange
    have hv0 := hrange v0 (by simp)
    have hi : (decide (intLen < (List.map some rest).length)) = false := by
      simp only [List.length_map]
      simp only [List.length_cons] at hlen
      exact decide_eq_false (by omega)
    rw [List.map_cons, roundLoop]
    rw [hi, Bool.and_false]
    simp only [Bool.false_eq_true, if_false]
    generalize hsdef : roundStep base mode neg
      (decide (RI < ((List.map some rest).length : ℤ))) v0 isR
      (List.map some rest).head? ((List.map some rest).get? 1) = s
    obtain ⟨hs0, hs1⟩ : 0 ≤ s.1 ∧ s.1 < (base : ℤ) := by
      rw [← hsdef]
      exact roundStep_range base mode neg _ v0 isR _ _ hb hv0.1 hv0.2
    cases hs2 : s.2 with
    | false =>
      simp only [hs2, Bool.not_false, if_true]
      refine ⟨rest.reverse ++ [s.1], false, ?_, by simp, ?_⟩
      · rw [map_some_snoc, List.map_reverse]
      · intro d hd
        rw [List.mem_append, List.mem_singleton] at hd
        rcases hd with hd | hd
        · exact hrange d (by simp [List.mem_reverse.mp hd])
        · subst hd
          exact ⟨hs0, hs1⟩
    | true =>
      simp only [hs2, Bool.not_true, Bool.false_eq_true, if_false]
      have H := fun oz2 => ih (some s.1 :: done) true oz2
        (by simp only [List.length_cons] at hlen; omega)
        (fun d hd => hrange d (by simp [hd]))
      obtain ⟨A2, rem, heq, hlenA, hrangeA⟩ := H _
      refine ⟨A2 ++ [s.1], rem, ?_, ?_, ?_⟩
      · rw [heq, map_some_snoc]
      · simp [hlenA]
      · intro d hd
        rw [List.mem_append, List.mem_singleton] at hd
        rcases hd with hd | hd
        · exact hrangeA d hd
        · subst hd
          exact ⟨hs0, hs1⟩

/-- Master structural lemma for the whole backward pass, starting in the
discarded/fraction region (indices above `intLen`): the result is an
integer region of exactly `intLen` digit entries, the sentinel, and a
fraction region no longer than the unvisited fraction digits plus the visited
suffix; all digit values stay within `[0, base)`. -/
theorem roundLoop_mainPhase (base : ℕ) (mode : RoundingMode) (neg : Bool) (intLen : ℕ)
    (RI : ℤ) (hb : 1 ≤ base) :
    ∀ (revF revA doneVals : List ℤ) (isR oz : Bool),
      revA.length = intLen →
      (∀ d ∈ revF, 0 ≤ d ∧ d < (base : ℤ)) →
      (∀ d ∈ revA, 0 ≤ d ∧ d < (base : ℤ)) →
      (∀ d ∈ doneVals, 0 ≤ d ∧ d < (base : ℤ)) →
      ∃ (A2 B2 : List ℤ) (rem : Bool),
        roundLoop base mode neg intLen RI (revF.map some ++ none :: revA.map some)
            (doneVals.map some) isR oz
          = (A2.map some ++ none :: B2.map some, rem)
        ∧ A2.length = intLen
        ∧ B2.length ≤ revF.length + doneVals.length
        ∧ (∀ d ∈ A2, 0 ≤ d ∧ d < (base : ℤ))
        ∧ (∀ d ∈ B2, 0 ≤ d ∧ d < (base : ℤ)) := by
  intro revF
  induction revF with
  | nil =>
    intro revA doneVals isR oz hlen hF hA hD
    rw [List.map_nil, List.nil_append, roundLoop]
    obtain ⟨A2, rem, heq, hlenA, hrangeA⟩ := roundLoop_intPhase base mode neg intLen RI hb
      revA (none :: doneVals.map some) isR oz (le_of_eq hlen) hA
    exact ⟨A2, doneVals, rem, heq, hlenA.trans hlen, by simp, hrangeA, hD⟩
  | cons d0 revF' ih =>
    intro revA doneVals isR oz hlen hF hA hD
    have hd0 := hF d0 (by simp)
    have hrest :
        (List.map some revF' ++ none :: List.map some revA).length
          = revF'.length + 1 + intLen := by
      simp [hlen]
      omega
    have hi : decide (intLen < (List.map some revF' ++ none :: List.map some revA).length)
        = true := by
      rw [hrest]
      exact decide_eq_true (by omega)
    rw [List.map_cons, List.cons_append, roundLoop]
    rw [hi, Bool.and_true]
    generalize hsdef : roundStep base mode neg
      (decide (RI < (((List.map some revF' ++ none :: List.map some revA)).length : ℤ)))
      d0 isR (List.map some revF' ++ none :: List.map some revA).head?
      ((List.map some revF' ++ none :: List.map some revA).get? 1) = s
    obtain ⟨hs0, hs1⟩ : 0 ≤ s.1 ∧ s.1 < (base : ℤ) := by
      rw [← hsdef]
      exact roundStep_range base mode neg _ d0 isR _ _ hb hd0.1 hd0.2
    have hFr : ∀ d ∈ revF', 0 ≤ d ∧ d < (base : ℤ) := fun d hd => hF d (by simp [hd])
    -- the pop branch, for any later flags
    have hpop : ∀ (isR' oz' : Bool),
        ∃ (A2 B2 : List ℤ) (rem : Bool),
          roundLoop base mode neg intLen RI (revF'.map some ++ none :: revA.map some)
              ((some s.1 :: doneVals.map some).dropLast) isR' oz'
            = (A2.map some ++ none :: B2.map some, rem)
          ∧ A2.length = intLen
          ∧ B2.length ≤ (d0 :: revF').length + doneVals.length
          ∧ (∀ d ∈ A2, 0 ≤ d ∧ d < (base : ℤ))
          ∧ (∀ d ∈ B2, 0 ≤ d ∧ d < (base : ℤ)) := by
      intro isR' oz'
      have hdrop : (some s.1 :: doneVals.map some).dropLast
          = ((s.1 :: doneVals).dropLast).map some := by
        rw [← List.map_cons, List.map_dropLast]
      rw [hdrop]
      obtain ⟨A2, B2, rem, heq, h1, h2, h3, h4⟩ := ih revA ((s.1 :: doneVals).dropLast) isR' oz'
        hlen hFr hA
        (fun d hd => by
          have hd' : d ∈ s.1 :: doneVals := List.dropLast_subset _ hd
          rcases List.mem_cons.mp hd' with hd' | hd'
          · subst hd'
            exact ⟨hs0, hs1⟩
          · exact hD d hd')
      refine ⟨A2, B2, rem, heq, h1, ?_, h3, h4⟩
      have : ((s.1 :: doneVals).dropLast).length = doneVals.length := by simp
      rw [this] at h2
      simp only [List.length_cons]
      omega
    -- the continue branch
    have hcont : ∀ (isR' oz' : Bool),
        ∃ (A2 B2 : List ℤ) (rem : Bool),
          roundLoop base mode neg intLen RI (revF'.map some ++ none :: revA.map some)
              (some s.1 :: doneVals.map some) isR' oz'
            = (A2.map some ++ none :: B2.map some, rem)
          ∧ A2.length = intLen
          ∧ B2.length ≤ (d0 :: revF').length + doneVals.length
          ∧ (∀ d ∈ A2, 0 ≤ d ∧ d < (base : ℤ))
          ∧ (∀ d ∈ B2, 0 ≤ d ∧ d < (base : ℤ)) := by
      intro isR' oz'
      rw [show (some s.1 :: doneVals.map some) = (s.1 :: doneVals).map some from rfl]
      obtain ⟨A2, B2, rem, heq, h1, h2, h3, h4⟩ := ih revA (s.1 :: doneVals) isR' oz'
        hlen hFr hA
        (fun d hd => by
          rcases List.mem_cons.mp hd with hd' | hd'
          · subst hd'
            exact ⟨hs0, hs1⟩
          · exact hD d hd')
      refine ⟨A2, B2, rem, heq, h1, ?_, h3, h4⟩
      simp only [List.length_cons] at h2 ⊢
      omega
    -- the break branch
    have hbreak :
        ((List.map some revF' ++ none :: List.map some revA).reverse
            ++ some s.1 :: doneVals.map some)
          = (revA.reverse).map some
            ++ none :: ((revF'.reverse ++ s.1 :: doneVals).map some) := by
      rw [List.reverse_append, List.reverse_cons]
      simp [List.append_assoc]
    have helse : ∀ oz' : Bool,
        ∃ (A2 B2 : List ℤ) (rem : Bool),
          (if (!s.2) = true then
              ((List.map some revF' ++ none :: List.map some revA).reverse
                ++ some s.1 :: List.map some doneVals, s.2)
            else
              roundLoop base mode neg intLen RI
                (List.map some revF' ++ none :: List.map some revA)
                (some s.1 :: List.map some doneVals) s.2 oz')
            = (A2.map some ++ none :: B2.map some, rem)
          ∧ A2.length = intLen
          ∧ B2.length ≤ (d0 :: revF').length + doneVals.length
          ∧ (∀ d ∈ A2, 0 ≤ d ∧ d < (base : ℤ))
          ∧ (∀ d ∈ B2, 0 ≤ d ∧ d < (base : ℤ)) := by
      intro oz'
      cases hs2 : s.2 with
      | false =>
        simp only [Bool.not_false, if_pos]
        refine ⟨revA.reverse, revF'.reverse ++ s.1 :: doneVals, false, ?_, by simp [hlen], ?_,
          ?_, ?_⟩
        · rw [hbreak]
        · simp only [List.length_append, List.length_cons, List.length_reverse]
          omega
        · intro d hd
          exact hA d (List.mem_reverse.mp hd)
        · intro d hd
          rcases List.mem_append.mp hd with hd' | hd'
          · exact hFr d (List.mem_reverse.mp hd')
          · rcases List.mem_cons.mp hd' with hd'' | hd''
            · subst hd''
              exact ⟨hs0, hs1⟩
            · exact hD d hd''
      | true =>
        simp only [Bool.not_true, Bool.false_eq_true, if_false]
        exact hcont _ _
    by_cases hc1 : decide (RI
        < (((List.map some revF' ++ none :: List.map some revA)).length : ℤ)) = true
    · rw [if_pos hc1, if_pos rfl]
      exact hpop _ _
    · rw [if_neg hc1]
      by_cases hz : s.1 ≠ 0
      · rw [if_pos hz, if_neg (by simp)]
        exact helse _
      · rw [if_neg hz]
        cases oz with
        | true =>
          rw [if_pos rfl]
          exact hpop _ _
        | false =>
          rw [if_neg (by simp)]
          exact helse _

/-- With no pending carry and on a kept position, a visited digit is written
back unchanged and the carry stays clear. -/
theorem roundStep_noop (base : ℕ) (mode : RoundingMode) (neg : Bool) (v0 : ℤ)
    (p1 p2 : Option (Option ℤ)) :
    roundStep base mode neg false v0 false p1 p2 = (v0, false) := rfl

/-- When every position is kept (`roundingIndex` at least every index) and no
carry is pending, the pass only trims the trailing zero fraction digits and
stops at the first non-zero digit (or at the last integer digit). -/
theorem roundLoop_noRound (base : ℕ) (mode : RoundingMode) (neg : Bool) (intLen : ℕ)
    (RI : ℤ) :
    ∀ (revF revA : List ℤ),
      revA ≠ [] →
      revA.length = intLen →
      (intLen : ℤ) + revF.length ≤ RI →
      roundLoop base mode neg intLen RI (revF.map some ++ none :: revA.map some) [] false true
        = (revA.reverse.map some ++ none :: ((revF.dropWhile (· == 0)).reverse.map some),
            false) := by
  intro revF
  induction revF with
  | nil =>
    intro revA hne hlen hRI
    obtain ⟨a, restA, rfl⟩ : ∃ a restA, revA = a :: restA := by
      cases revA with
      | nil => exact absurd rfl hne
      | cons a r => exact ⟨a, r, rfl⟩
    rw [List.map_nil, List.nil_append, roundLoop, List.map_cons, roundLoop]
    have hIL : intLen = restA.length + 1 := by simpa using hlen.symm
    have h1 : decide (RI < ((List.map some restA).length : ℤ)) = false := by
      apply decide_eq_false
      simp only [List.length_map, List.length_nil] at hRI ⊢
      push_cast at hRI ⊢
      omega
    have h2 : decide (intLen < (List.map some restA).length) = false := by
      apply decide_eq_false
      simp only [List.length_map]
      omega
    rw [h1, roundStep_noop, h2, Bool.and_false]
    simp only [Bool.false_eq_true, if_false, Bool.not_false, if_pos]
    rw [List.dropWhile_nil, List.reverse_cons]
    simp [List.append_assoc]
  | cons d0 revF' ih =>
    intro revA hne hlen hRI
    rw [List.map_cons, List.cons_append, roundLoop]
    have hrest :
        (List.map some revF' ++ none :: List.map some revA).length
          = revF'.length + 1 + intLen := by
      simp [hlen]
      omega
    have h1 : decide (RI
        < (((List.map some revF' ++ none :: List.map some revA)).length : ℤ)) = false := by
      apply decide_eq_false
      rw [hrest]
      simp only [List.length_cons] at hRI
      push_cast at hRI ⊢
      omega
    have h2 : decide (intLen < (List.map some revF' ++ none :: List.map some revA).length)
        = true := by
      apply decide_eq_true
      rw [hrest]
      omega
    rw [h1, roundStep_noop, h2, Bool.and_true]
    by_cases hd : d0 = 0
    · subst hd
      simp only [Bool.false_eq_true, if_false, ne_eq, not_true_eq_false, if_neg,
        not_false_eq_true, if_pos]
      rw [List.dropLast_single]
      rw [ih revA hne hlen (by simp only [List.length_cons] at hRI; push_cast at hRI ⊢; omega)]
      rw [List.dropWhile_cons_of_pos (by simp)]
    · simp only [Bool.false_eq_true, if_false, ne_eq, hd, not_false_eq_true, if_pos,
        Bool.not_false]
      rw [List.dropWhile_cons_of_neg (by simp [hd])]
      rw [List.reverse_append, List.reverse_cons]
      simp [List.append_assoc]

/-! ## From the rounded array to the `NumeralOutput` fields -/

theorem findIdx_none_map_some (A : List ℤ) (B : List (Option ℤ)) :
    ((A.map some ++ none :: B).findIdx fun v => v == none) = A.length := by
  induction A with
  | nil => simp [List.findIdx_cons]
  | cons a A ih =>
    simp only [List.map_cons, List.cons_append, List.findIdx_cons] at ih ⊢
    simp [ih]

theorem take_intPart (A : List ℤ) (B : List (Option ℤ)) :
    ((A.map some ++ none :: B).take A.length).filterMap id = A := by
  rw [List.take_left' (by simp), List.filterMap_map]
  simp

theorem drop_fracPart (A B : List ℤ) :
    ((A.map some ++ none :: B.map some).drop (A.length + 1)).filterMap id = B := by
  rw [List.append_cons, List.drop_left' (by simp), List.filterMap_map]
  simp

/-- The fields of `encode` in terms of the outcome of the rounding pass. -/
theorem encode_of_encodeArray (base : ℕ) (props : ConverterProps) (decVal : DecInput)
    (A2 B2 : List ℤ) (rem : Bool)
    (h : encodeArray base props decVal = (A2.map some ++ none :: B2.map some, rem)) :
    encode base props decVal =
      { isNegative :=
          if decVal.abs ≠ 0
              ∧ isAllZero (if rem then some 1 :: (A2.map some ++ none :: B2.map some)
                  else A2.map some ++ none :: B2.map some) = true then false
          else decVal.isNeg
        integer := if rem then 1 :: A2 else A2
        fraction := B2
        exponent :=
          if makeExponential base props decVal.abs then encodeExponent base props decVal.abs
          else 0 } := by
  unfold encode
  rw [h]
  cases rem with
  | false =>
    simp only [Bool.false_eq_true, if_false]
    have hfi := findIdx_none_map_some A2 (B2.map some)
    rw [hfi]
    congr 1
    · exact take_intPart A2 (B2.map some)
    · exact drop_fracPart A2 B2
  | true =>
    simp only [if_true]
    have harr : some 1 :: (A2.map some ++ none :: B2.map some)
        = (1 :: A2).map some ++ none :: B2.map some := by
      simp
    rw [harr]
    have hfi := findIdx_none_map_some (1 :: A2) (B2.map some)
    rw [hfi]
    congr 1
    · exact take_intPart (1 :: A2) (B2.map some)
    · exact drop_fracPart (1 :: A2) B2

/-! ## The pass applied to the pre-rounding working array -/

theorem baseValArr_reverse (base : ℕ) (props : ConverterProps) (absVal : ℚ) :
    (baseValArr base props absVal).reverse
      = (baseFractVal base props absVal).reverse.map some
        ++ none :: (baseIntVal base props absVal).reverse.map some := by
  unfold baseValArr
  rw [List.reverse_append, List.reverse_cons]
  simp [List.append_assoc]

theorem baseIntVal_spec (base : ℕ) (props : ConverterProps) (absVal : ℚ) (hb : 2 ≤ base) :
    baseIntVal base props absVal ≠ []
    ∧ (∀ d ∈ baseIntVal base props absVal, 0 ≤ d ∧ d < (base : ℤ))
    ∧ (baseIntVal base props absVal).foldl (fun a d => a * (base : ℤ) + d) 0
        = ((⌊expValue base props absVal⌋.toNat : ℕ) : ℤ) :=
  convertIntegerToBase_spec base hb _

theorem fractPart_nonneg (base : ℕ) (props : ConverterProps) (absVal : ℚ) :
    0 ≤ expValue base props absVal - (⌊expValue base props absVal⌋ : ℚ)
    ∧ expValue base props absVal - (⌊expValue base props absVal⌋ : ℚ) < 1 :=
  ⟨by linarith [Int.floor_le (expValue base props absVal)],
    by linarith [Int.lt_floor_add_one (expValue base props absVal)]⟩

theorem baseFractVal_spec (base : ℕ) (props : ConverterProps) (absVal : ℚ) (hb : 2 ≤ base) :
    (∀ d ∈ baseFractVal base props absVal, 0 ≤ d ∧ d < (base : ℤ))
    ∧ (baseFractVal base props absVal).length
        ≤ (maxFractLengthByPrecision base props absVal).toNat
    ∧ ∃ rem : ℚ, 0 ≤ rem ∧ rem < 1
        ∧ expValue base props absVal - (⌊expValue base props absVal⌋ : ℚ)
            = decodeAux base (-1) (baseFractVal base props absVal)
              + rem * (base : ℚ) ^ (-((baseFractVal base props absVal).length : ℤ))
        ∧ ((baseFractVal base props absVal).length
              < (maxFractLengthByPrecision base props absVal).toNat → rem = 0) :=
  convertFractionToBase_spec base hb _ _ (fractPart_nonneg base props absVal).1
    (fractPart_nonneg base props absVal).2

/-- The rounding pass always yields an array of the form
`integer ++ [sentinel] ++ fraction` with in-range digits, an unchanged
integer length and a fraction no longer than the materialized digits. -/
theorem encodeArray_shape (base : ℕ) (props : ConverterProps) (decVal : DecInput)
    (hb : 2 ≤ base) :
    ∃ (A2 B2 : List ℤ) (rem : Bool),
      encodeArray base props decVal = (A2.map some ++ none :: B2.map some, rem)
      ∧ A2.length = (baseIntVal base props decVal.abs).length
      ∧ B2.length ≤ (baseFractVal base props decVal.abs).length
      ∧ (∀ d ∈ A2, 0 ≤ d ∧ d < (base : ℤ))
      ∧ (∀ d ∈ B2, 0 ≤ d ∧ d < (base : ℤ)) := by
  unfold encodeArray
  rw [baseValArr_reverse]
  obtain ⟨A2, B2, rem, heq, h1, h2, h3, h4⟩ :=
    roundLoop_mainPhase base props.roundingMode decVal.isNeg
      (baseIntVal base props decVal.abs).length (roundingIndex base props decVal.abs)
      (by omega)
      (baseFractVal base props decVal.abs).reverse
      (baseIntVal base props decVal.abs).reverse [] false true
      (by simp)
      (fun d hd => (baseFractVal_spec base props decVal.abs hb).1 d (List.mem_reverse.mp hd))
      (fun d hd => (baseIntVal_spec base props decVal.abs hb).2.1 d (List.mem_reverse.mp hd))
      (by simp)
  rw [List.map_nil] at heq
  refine ⟨A2, B2, rem, heq, h1, ?_, h3, h4⟩
  simpa using h2

/-- When the materialized fraction digits all lie at kept positions, the pass
only trims trailing zeros and raises no carry. -/
theorem encodeArray_noRound (base : ℕ) (props : ConverterProps) (decVal : DecInput)
    (hb : 2 ≤ base)
    (hF : ((baseFractVal base props decVal.abs).length : ℤ)
        ≤ maxFractionalLength base props decVal.abs) :
    encodeArray base props decVal
      = ((baseIntVal base props decVal.abs).map some
          ++ none :: (dropTrailingZeros (baseFractVal base props decVal.abs)).map some,
        false) := by
  unfold encodeArray
  rw [baseValArr_reverse]
  rw [roundLoop_noRound base props.roundingMode decVal.isNeg
    (baseIntVal base props decVal.abs).length (roundingIndex base props decVal.abs)
    (baseFractVal base props decVal.abs).reverse
    (baseIntVal base props decVal.abs).reverse
    (by simpa using (baseIntVal_spec base props decVal.abs hb).1)
    (by simp)
    (by
      unfold roundingIndex
      simp only [List.length_reverse]
      omega)]
  rw [List.reverse_reverse]
  rfl

/-! ## The integer logarithm -/

theorem intLogAux_eq_log (b : ℕ) : ∀ fuel n : ℕ, n ≤ fuel → intLogAux b fuel n = Nat.log b n := by
  intro fuel
  induction fuel with
  | zero =>
    intro n hn
    have : n = 0 := by omega
    subst this
    simp [intLogAux]
  | succ fuel ih =>
    intro n hn
    rw [intLogAux, Nat.log]
    by_cases h : b ≤ n ∧ 1 < b
    · rw [if_pos ⟨h.2, h.1⟩, dif_pos h, ih (n / b) ?_]
      have : n / b < n := Nat.div_lt_self (by omega) h.2
      omega
    · rw [if_neg fun hc => h ⟨hc.2, hc.1⟩, dif_neg h]

theorem intClogAux_eq_clog (b : ℕ) :
    ∀ fuel n : ℕ, n ≤ fuel → intClogAux b fuel n = Nat.clog b n := by
  intro fuel
  induction fuel with
  | zero =>
    intro n hn
    have : n = 0 := by omega
    subst this
    simp [intClogAux]
  | succ fuel ih =>
    intro n hn
    rw [intClogAux, Nat.clog]
    by_cases h : 1 < b ∧ 1 < n
    · rw [if_pos h, dif_pos h, ih ((n + b - 1) / b) ?_]
      have : (n + b - 1) / b < n := Nat.add_pred_div_lt h.1 (by omega)
      omega
    · rw [if_neg h, dif_neg h]

theorem ratLog_eq_intLog (b : ℕ) (r : ℚ) : ratLog b r = Int.log b r := by
  unfold ratLog
  by_cases h : 1 ≤ r
  · rw [if_pos h, Int.log_of_one_le_right _ h, intLogAux_eq_log b _ _ le_rfl]
  · rw [if_neg h, Int.log_of_right_le_one _ (le_of_not_le h),
      intClogAux_eq_clog b _ _ le_rfl]

/-! ## Properties of the exponent selection -/

theorem calculateExponent_zero (base : ℕ) (isEng : Bool) :
    calculateExponent base 0 isEng = 0 := by
  simp [calculateExponent]

theorem makeExponential_elim (base : ℕ) (props : ConverterProps) (v : ℚ)
    (h : makeExponential base props v = true) :
    props.notationMode ≠ Notation.standard ∧ v ≠ 0 := by
  unfold makeExponential at h
  rw [Bool.and_eq_true] at h
  constructor
  · intro heq
    rw [heq] at h
    simp at h
  · intro hv
    rw [hv, calculateExponent_zero] at h
    simp at h

theorem makeExponential_standard (base : ℕ) (props : ConverterProps) (v : ℚ)
    (h : props.notationMode = Notation.standard) :
    makeExponential base props v = false := by
  simp [makeExponential, h]

/-! ## Claims -/

/-- C10: an input that is exactly negative zero keeps its negative sign: the
sign-clearing rule fires only when the original value was non-zero, so
`encode` of `-0` returns `isNegative = true`. -/
theorem claim_C10_negative_zero_kept (base : ℕ) (props : ConverterProps) :
    (encode base props ⟨true, 0⟩).isNegative = true := by
  simp [encode]

theorem claim_C10_witness :
    (encode 10 defaultProps ⟨true, 0⟩).isNegative = true :=
  claim_C10_negative_zero_kept 10 defaultProps

/-- C7: zero-sign normalization: whenever the original value is non-zero and
the rounded array holds only zero digits, the output sign is cleared;
concretely, `-0.0001` with zero fraction digits and `trunc` encodes to a
non-negative zero. -/
theorem claim_C7_zero_sign :
    (∀ (base : ℕ) (props : ConverterProps) (decVal : DecInput),
        decVal.abs ≠ 0 →
        isAllZero (if (encodeArray base props decVal).2 then
            some 1 :: (encodeArray base props decVal).1
          else (encodeArray base props decVal).1) = true →
        (encode base props decVal).isNegative = false)
    ∧ encode 10 ⟨.trunc, 32, some 0, .standard⟩ (ratInput (-(1/10000)))
        = ⟨false, [0], [], 0⟩ := by
  constructor
  · intro base props decVal h0 hz
    unfold encode
    dsimp only
    rw [if_pos ⟨h0, hz⟩]
  · with_unfolding_all decide

theorem claim_C7_witness :
    (ratInput (-(1/10000)) : DecInput).abs ≠ 0
    ∧ (encode 10 ⟨.trunc, 32, some 0, .standard⟩ (ratInput (-(1/10000)))).isNegative
        = false :=
  ⟨by with_unfolding_all decide,
    claim_C7_zero_sign.1 10 ⟨.trunc, 32, some 0, .standard⟩ (ratInput (-(1/10000)))
      (by with_unfolding_all decide) (by with_unfolding_all decide)⟩

/-- C6: carry overflow: whenever the backward pass ends with a pending carry,
`encode` prepends a new leading digit `1`, making the integer part one digit
longer than the pre-rounding integer digits; concretely `99.6` with zero
fraction digits and `halfExpand` encodes to integer digits `[1, 0, 0]`. -/
theorem claim_C6_carry_overflow :
    (∀ (base : ℕ) (props : ConverterProps) (decVal : DecInput), 2 ≤ base →
        (encodeArray base props decVal).2 = true →
        (encode base props decVal).integer.length
            = (baseIntVal base props decVal.abs).length + 1
          ∧ (encode base props decVal).integer.head? = some 1)
    ∧ encode 10 ⟨.halfExpand, 32, some 0, .standard⟩ (ratInput (996/10))
        = ⟨false, [1, 0, 0], [], 0⟩ := by
  constructor
  · intro base props decVal hb hrem
    obtain ⟨A2, B2, rem, heq, h1, h2, h3, h4⟩ := encodeArray_shape base props decVal hb
    have hremeq : rem = true := by
      rw [heq] at hrem
      exact hrem
    subst hremeq
    rw [encode_of_encodeArray base props decVal A2 B2 true heq]
    simp [h1]
  · with_unfolding_all decide

theorem claim_C6_witness :
    2 ≤ 10
    ∧ (encodeArray 10 ⟨.halfExpand, 32, some 0, .standard⟩ (ratInput (996/10))).2 = true
    ∧ (encode 10 ⟨.halfExpand, 32, some 0, .standard⟩ (ratInput (996/10))).integer.length
        = (baseIntVal 10 ⟨.halfExpand, 32, some 0, .standard⟩
            (ratInput (996/10)).abs).length + 1 :=
  ⟨by norm_num, by with_unfolding_all decide,
    (claim_C6_carry_overflow.1 10 ⟨.halfExpand, 32, some 0, .standard⟩ (ratInput (996/10))
      (by norm_num) (by with_unfolding_all decide)).1⟩

/-- C8: the `NumeralOutput` invariant: the integer digit list is never empty,
every digit of the integer and fraction parts lies in `[0, base)`, and the
exponent is `0` unless the notation is non-standard and the value non-zero. -/
theorem claim_C8_numeral_invariant (base : ℕ) (props : ConverterProps) (decVal : DecInput)
    (hb : 2 ≤ base) :
    (encode base props decVal).integer ≠ []
    ∧ (∀ d ∈ (encode base props decVal).integer, 0 ≤ d ∧ d < (base : ℤ))
    ∧ (∀ d ∈ (encode base props decVal).fraction, 0 ≤ d ∧ d < (base : ℤ))
    ∧ ((encode base props decVal).exponent ≠ 0
        → props.notationMode ≠ Notation.standard ∧ decVal.abs ≠ 0) := by
  obtain ⟨A2, B2, rem, heq, h1, h2, h3, h4⟩ := encodeArray_shape base props decVal hb
  rw [encode_of_encodeArray base props decVal A2 B2 rem heq]
  have hAne : A2 ≠ [] := by
    intro hA
    have := (baseIntVal_spec base props decVal.abs hb).1
    rw [hA, List.length_nil] at h1
    exact this (List.length_eq_zero.mp h1.symm)
  refine ⟨?_, ?_, h4, ?_⟩
  · cases rem <;> simp [hAne]
  · intro d hd
    cases rem with
    | false =>
      simp only [Bool.false_eq_true, if_false] at hd
      exact h3 d hd
    | true =>
      simp only [if_true, List.mem_cons] at hd
      rcases hd with hd | hd
      · subst hd
        exact ⟨by norm_num, by exact_mod_cast (by omega : (1 : ℕ) < base)⟩
      · exact h3 d hd
  · intro hexp
    by_cases hmk : makeExponential base props decVal.abs = true
    · exact makeExponential_elim base props decVal.abs hmk
    · rw [Bool.not_eq_true] at hmk
      simp only [hmk, Bool.false_eq_true, if_false] at hexp
      exact absurd rfl hexp

theorem claim_C8_witness :
    2 ≤ 10
    ∧ (encode 10 defaultProps (ratInput (45/10))).integer ≠ []
    ∧ (∀ d ∈ (encode 10 defaultProps (ratInput (45/10))).integer, 0 ≤ d ∧ d < (10 : ℤ)) :=
  ⟨by norm_num,
    (claim_C8_numeral_invariant 10 defaultProps (ratInput (45/10)) (by norm_num)).1,
    (claim_C8_numeral_invariant 10 defaultProps (ratInput (45/10)) (by norm_num)).2.1⟩

/-- C4, counterexample: the claim "the total count of significant digits
retained is at most the configured precision" fails: encoding `123` in base
10 with precision 1 (standard notation) retains all three integer digits,
because the precision only caps the fraction expansion and integer digits are
never discarded in standard notation. -/
theorem claim_C4_counterexample :
    ¬ (sigDigitCount (encode 10 ⟨.halfExpand, 1, none, .standard⟩ (ratInput 123))
        ≤ (⟨.halfExpand, 1, none, .standard⟩ : ConverterProps).precision) := by
  with_unfolding_all decide

/-- C4, amended: the count of fraction digits retained by `encode` is at most
the configured precision; the integer digits are not bounded by it. -/
theorem claim_C4_amended_fraction_bound (base : ℕ) (props : ConverterProps)
    (decVal : DecInput) (hb : 2 ≤ base) :
    (encode base props decVal).fraction.length ≤ props.precision := by
  obtain ⟨A2, B2, rem, heq, h1, h2, h3, h4⟩ := encodeArray_shape base props decVal hb
  rw [encode_of_encodeArray base props decVal A2 B2 rem heq]
  have hF := (baseFractVal_spec base props decVal.abs hb).2.1
  have hcap : (maxFractLengthByPrecision base props decVal.abs).toNat ≤ props.precision := by
    unfold maxFractLengthByPrecision
    split
    · rw [Int.toNat_le]
      have h0 : (0 : ℤ) < precisionExponent base props decVal.abs := by assumption
      omega
    · simp
  simp only
  omega

theorem claim_C4_amended_witness :
    2 ≤ 10
    ∧ (encode 10 ⟨.halfExpand, 1, none, .standard⟩ (ratInput 123)).fraction.length
        ≤ (1 : ℕ) :=
  ⟨by norm_num,
    claim_C4_amended_fraction_bound 10 ⟨.halfExpand, 1, none, .standard⟩ (ratInput 123)
      (by norm_num)⟩

/-- The decision functions agree with the spec table whenever the array
neighborhood designates an adjacent kept digit: either `values[i-1]` is that
digit, or `values[i-1]` is the sentinel and `values[i-2]` is that digit. -/
theorem roundingModeCarry_eq_specCarry (base : ℕ) (mode : RoundingMode) (digit : ℤ)
    (isNeg : Bool) (p1 p2 : Option (Option ℤ)) (adj : ℤ)
    (h : p1 = some (some adj) ∨ (p1 = some none ∧ p2 = some (some adj))) :
    roundingModeCarry base mode digit isNeg p1 p2 = specCarry base mode digit isNeg adj := by
  have hadj : adjacentLookup p1 p2 = some adj := by
    rcases h with h | ⟨h1, h2⟩
    · subst h
      rfl
    · subst h1
      subst h2
      rfl
  cases mode with
  | expand => rfl
  | trunc => rfl
  | ceil => rfl
  | floor => rfl
  | halfExpand => rfl
  | halfTrunc => rfl
  | halfCeil => rfl
  | halfFloor => rfl
  | halfEven =>
    show (if (digit : ℚ) = (base : ℚ) / 2 then _ else _) = _
    unfold specCarry
    by_cases hd : (digit : ℚ) = (base : ℚ) / 2
    · rw [if_pos hd, hadj]
      rw [decide_eq_decide]
      rw [← Int.odd_iff]
      constructor
      · intro ho
        exact Or.inr ⟨hd, ho⟩
      · rintro (hlt | ⟨-, ho⟩)
        · rw [hd] at hlt
          exact absurd hlt (lt_irrefl _)
        · exact ho
    · rw [if_neg hd]
      rw [decide_eq_decide]
      constructor
      · exact Or.inl
      · rintro (hlt | ⟨heq, -⟩)
        · exact hlt
        · exact absurd heq hd
  | halfOdd =>
    show (if (digit : ℚ) = (base : ℚ) / 2 then _ else _) = _
    unfold specCarry
    by_cases hd : (digit : ℚ) = (base : ℚ) / 2
    · rw [if_pos hd, hadj]
      rw [decide_eq_decide]
      rw [← Int.even_iff]
      constructor
      · intro ho
        exact Or.inr ⟨hd, ho⟩
      · rintro (hlt | ⟨-, ho⟩)
        · rw [hd] at hlt
          exact absurd hlt (lt_irrefl _)
        · exact ho
    · rw [if_neg hd]
      rw [decide_eq_decide]
      constructor
      · exact Or.inl
      · rintro (hlt | ⟨heq, -⟩)
        · exact hlt
        · exact absurd heq hd

/-- C2: the ten rounding-mode decision functions implement the spec table
(with `B/2 = base/2` and the adjacent kept digit read through the sentinel),
and the concrete base-10 rounding table of the spec holds: encoding
`5.5, 2.5, 1.75, 1.25, 1, -1, -1.25, -1.75, -2.5, -5.5` with zero fraction
digits under `ceil`, `halfEven` and `halfOdd` produces the listed values. -/
theorem claim_C2_rounding_modes :
    (∀ (base : ℕ) (mode : RoundingMode) (digit : ℤ) (isNeg : Bool)
        (p1 p2 : Option (Option ℤ)) (adj : ℤ),
        p1 = some (some adj) ∨ (p1 = some none ∧ p2 = some (some adj)) →
        roundingModeCarry base mode digit isNeg p1 p2 = specCarry base mode digit isNeg adj)
    ∧ ([(11/2 : ℚ), 5/2, 7/4, 5/4, 1, -1, -5/4, -7/4, -5/2, -11/2].map fun v =>
          decode 10 (encode 10 ⟨.ceil, 32, some 0, .standard⟩ (ratInput v)))
        = [6, 3, 2, 2, 1, -1, -1, -1, -2, -5]
    ∧ ([(11/2 : ℚ), 5/2, 7/4, 5/4, 1, -1, -5/4, -7/4, -5/2, -11/2].map fun v =>
          decode 10 (encode 10 ⟨.halfEven, 32, some 0, .standard⟩ (ratInput v)))
        = [6, 2, 2, 1, 1, -1, -1, -2, -2, -6]
    ∧ ([(11/2 : ℚ), 5/2, 7/4, 5/4, 1, -1, -5/4, -7/4, -5/2, -11/2].map fun v =>
          decode 10 (encode 10 ⟨.halfOdd, 32, some 0, .standard⟩ (ratInput v)))
        = [5, 3, 2, 1, 1, -1, -1, -2, -3, -5] :=
  ⟨roundingModeCarry_eq_specCarry, by with_unfolding_all decide,
    by with_unfolding_all decide, by with_unfolding_all decide⟩

theorem claim_C2_witness :
    (some (some (4 : ℤ)) = some (some (4 : ℤ))
        ∨ (some (some (4 : ℤ)) = some none ∧ (none : Option (Option ℤ)) = some (some 4)))
    ∧ roundingModeCarry 10 .halfEven 5 false (some (some 4)) none
        = specCarry 10 .halfEven 5 false 4 :=
  ⟨Or.inl rfl, claim_C2_rounding_modes.1 10 .halfEven 5 false (some (some 4)) none 4
    (Or.inl rfl)⟩

/-- C9: fraction conversion is a pure truncating expansion: at most
`maxLength` digits are produced, each in `[0, base)`, stopping early exactly
when the remaining value is zero — so a short output means the value equals
the positional value of its digits exactly (no rounding); concretely `1/2`
in base 2 yields the single digit `[1]`, and the full `encode` of `0.5` in
base 2 with unrestricted fraction length produces fraction `[1]`. -/
theorem claim_C9_truncating_expansion :
    (∀ (base : ℕ) (v : ℚ) (maxLength : ℤ), 2 ≤ base → 0 ≤ v → v < 1 →
        (convertFractionToBase v base maxLength).length ≤ maxLength.toNat
        ∧ (∀ d ∈ convertFractionToBase v base maxLength, 0 ≤ d ∧ d < (base : ℤ))
        ∧ ((convertFractionToBase v base maxLength).length < maxLength.toNat →
            v = decodeAux base (-1) (convertFractionToBase v base maxLength)))
    ∧ convertFractionToBase (1/2) 2 32 = [1]
    ∧ encode 2 defaultProps (ratInput (1/2)) = ⟨false, [0], [1], 0⟩ := by
  refine ⟨?_, by with_unfolding_all decide, by with_unfolding_all decide⟩
  intro base v maxLength hb h0 h1
  obtain ⟨hmem, hlen, rem, hr0, hr1, hsum, hterm⟩ :=
    convertFractionToBase_spec base hb v maxLength h0 h1
  refine ⟨hlen, hmem, fun hlt => ?_⟩
  rw [hterm hlt, zero_mul, add_zero] at hsum
  exact hsum

theorem claim_C9_witness :
    2 ≤ 2 ∧ (0 : ℚ) ≤ 1/2 ∧ (1/2 : ℚ) < 1
    ∧ (convertFractionToBase (1/2) 2 32).length ≤ (32 : ℤ).toNat :=
  ⟨le_rfl, by norm_num, by norm_num,
    (claim_C9_truncating_expansion.1 2 (1/2) 32 le_rfl (by norm_num) (by norm_num)).1⟩

/-- The integer logarithm of a positive rational is unchanged by casting the
rational into the reals. -/
theorem intLog_ratCast (b : ℕ) (hb : 1 < b) (v : ℚ) (hv : 0 < v) :
    Int.log b ((v : ℝ)) = Int.log b v := by
  have hvR : (0 : ℝ) < (v : ℝ) := by exact_mod_cast hv
  have hcast : ∀ e : ℤ, (((b : ℚ) ^ e : ℚ) : ℝ) = (b : ℝ) ^ e := by
    intro e
    rw [Rat.cast_zpow, Rat.cast_natCast]
  apply le_antisymm
  · rw [← Int.zpow_le_iff_le_log hb hv, ← Rat.cast_le (K := ℝ), hcast]
    exact Int.zpow_log_le_self (R := ℝ) hb hvR
  · rw [← Int.zpow_le_iff_le_log hb hvR, ← hcast, Rat.cast_le]
    exact Int.zpow_log_le_self hb hv

/-- C5: exponent calculation: `0` for value `0`; for positive values it is
the floored base-`b` (or base-`b³`, times 3, in engineering mode) logarithm,
stated against the real natural logarithm, so the engineering exponent is
always a multiple of three; concretely `123456789` in base 10 encodes in
scientific notation with 4 fraction digits to integer `[1]`, exponent `8`,
and in engineering notation to exponent `6`, a multiple of three. -/
theorem claim_C5_exponent :
    (∀ (base : ℕ) (isEng : Bool), calculateExponent base 0 isEng = 0)
    ∧ (∀ (base : ℕ) (v : ℚ), 2 ≤ base → 0 < v →
        calculateExponent base v false = ⌊Real.log (v : ℝ) / Real.log (base : ℝ)⌋
        ∧ calculateExponent base v true
            = ⌊Real.log (v : ℝ) / Real.log ((base : ℝ) ^ (3 : ℕ))⌋ * 3
        ∧ (3 : ℤ) ∣ calculateExponent base v true)
    ∧ encode 10 ⟨.halfExpand, 32, some 4, .scientific⟩ (ratInput 123456789)
        = ⟨false, [1], [2, 3, 4, 6], 8⟩
    ∧ (encode 10 ⟨.halfExpand, 32, some 4, .engineering⟩ (ratInput 123456789)).exponent = 6
    ∧ (3 : ℤ) ∣ (encode 10 ⟨.halfExpand, 32, some 4, .engineering⟩
        (ratInput 123456789)).exponent := by
  refine ⟨fun base isEng => calculateExponent_zero base isEng, ?_,
    by with_unfolding_all decide, by with_unfolding_all decide, ?_⟩
  swap
  · rw [show (encode 10 ⟨.halfExpand, 32, some 4, .engineering⟩
        (ratInput 123456789)).exponent = 6 by with_unfolding_all decide]
    norm_num
  intro base v hb hv
  have hb1 : 1 < base := by omega
  have hvne : v ≠ 0 := ne_of_gt hv
  have hstd : calculateExponent base v false = Int.log base v := by
    rw [calculateExponent, if_neg hvne, if_neg (by simp), ratLog_eq_intLog]
  have heng : calculateExponent base v true = Int.log (base ^ 3) v * 3 := by
    rw [calculateExponent, if_neg hvne, if_pos rfl, ratLog_eq_intLog]
  refine ⟨?_, ?_, ?_⟩
  · rw [hstd, Real.log_div_log, Real.floor_logb_natCast (by positivity),
      intLog_ratCast base hb1 v hv]
  · have hb3 : 1 < base ^ 3 := Nat.one_lt_pow (by norm_num) hb1
    rw [heng, Real.log_div_log]
    congr 1
    rw [show ((base : ℝ) ^ (3 : ℕ)) = ((base ^ 3 : ℕ) : ℝ) by push_cast; ring]
    rw [Real.floor_logb_natCast (by positivity), intLog_ratCast (base ^ 3) hb3 v hv]
  · rw [heng]
    exact dvd_mul_left 3 _

theorem claim_C5_witness :
    2 ≤ 10 ∧ (0 : ℚ) < 2
    ∧ calculateExponent 10 2 false = ⌊Real.log ((2 : ℚ) : ℝ) / Real.log ((10 : ℕ) : ℝ)⌋ :=
  ⟨by norm_num, by norm_num, (claim_C5_exponent.2.1 10 2 (by norm_num) (by norm_num)).1⟩

/-- C1 (divergence record): with `halfExpand`, zero fraction digits in base
10, the code rounds `0.45` up to `1`, because the decision function is
re-evaluated on every discarded digit from the deepest one upward, each
incremented by the pending carry (`5` carries, then `4+1 = 5` carries again);
the per-spec single evaluation on the first discarded digit `4` (second
conjunct) yields no carry, which would give `0`. -/
theorem claim_C1_cascade_divergence :
    encode 10 ⟨.halfExpand, 32, some 0, .standard⟩ (ratInput (45/100))
      = ⟨false, [1], [], 0⟩
    ∧ specCarry 10 .halfExpand 4 false 0 = false :=
  ⟨by with_unfolding_all decide, by with_unfolding_all decide⟩

/-! ## Round-trip -/

theorem list_split_trailing_zeros (l : List ℤ) :
    l = dropTrailingZeros l ++ (l.reverse.takeWhile (· == 0)).reverse := by
  rw [dropTrailingZeros, ← List.reverse_append, List.takeWhile_append_dropWhile,
    List.reverse_reverse]

theorem decodeAux_dropTrailingZeros (base : ℕ) (e : ℤ) (l : List ℤ) :
    decodeAux base e (dropTrailingZeros l) = decodeAux base e l := by
  conv_rhs => rw [list_split_trailing_zeros l]
  rw [decodeAux_append]
  have hz : decodeAux base (e - ((dropTrailingZeros l).length : ℤ))
      ((l.reverse.takeWhile (· == 0)).reverse) = 0 := by
    apply decodeAux_all_zero
    intro d hd
    rw [List.mem_reverse] at hd
    have hp := List.mem_takeWhile_imp hd
    simpa using hp
  rw [hz, add_zero]

theorem dropTrailingZeros_all_zero (l : List ℤ) (h : ∀ d ∈ dropTrailingZeros l, d = 0) :
    ∀ d ∈ l, d = 0 := by
  intro d hd
  rw [list_split_trailing_zeros l, List.mem_append] at hd
  rcases hd with hd | hd
  · exact h d hd
  · rw [List.mem_reverse] at hd
    have hp := List.mem_takeWhile_imp hd
    simpa using hp

theorem isAllZero_parts (A B : List ℤ)
    (h : isAllZero (A.map some ++ none :: B.map some) = true) :
    (∀ d ∈ A, d = 0) ∧ (∀ d ∈ B, d = 0) := by
  simp only [isAllZero, List.all_append, List.all_cons, Bool.and_eq_true,
    List.all_eq_true, List.mem_map] at h
  obtain ⟨hA, -, hB⟩ := h
  constructor
  · intro d hd
    have := hA (some d) ⟨d, hd, rfl⟩
    simpa using this
  · intro d hd
    have := hB (some d) ⟨d, hd, rfl⟩
    simpa using this

theorem foldl_all_zero (base : ℕ) (A : List ℤ) (h : ∀ d ∈ A, d = 0) :
    A.foldl (fun a d => a * (base : ℤ) + d) 0 = 0 := by
  induction A using List.reverseRecOn with
  | nil => rfl
  | append_singleton xs d ih =>
    rw [List.foldl_append, ih fun x hx => h x (by simp [hx])]
    simp [h d (by simp)]

/-- Round-trip core: in standard notation, when the per-call maximum fraction
length does not restrict below the precision, decoding the encoded value
recovers the input up to the truncation error of the precision. -/
theorem decode_encode_error (base : ℕ) (props : ConverterProps) (v : ℚ)
    (hb : 2 ≤ base) (hv : v ≠ 0)
    (hstd : props.notationMode = Notation.standard)
    (hmfl : (props.precision : ℤ) ≤ maxFractionalLength base props |v|) :
    |decode base (encode base props (ratInput v)) - v|
      < (base : ℚ) ^ (-(props.precision : ℤ)) := by
  have hbq : (0 : ℚ) < base := by
    have h0 : (0 : ℕ) < base := by omega
    exact_mod_cast h0
  have hmk : makeExponential base props (ratInput v).abs = false :=
    makeExponential_standard _ _ _ hstd
  have hexpv : expValue base props (ratInput v).abs = |v| := by
    unfold expValue
    rw [hmk]
    simp [ratInput]
  have hbyprec : maxFractLengthByPrecision base props (ratInput v).abs
      = (props.precision : ℤ) := by
    unfold maxFractLengthByPrecision precisionExponent
    rw [hmk]
    simp
  set A := baseIntVal base props (ratInput v).abs with hA
  set F := baseFractVal base props (ratInput v).abs with hF
  obtain ⟨hFrange, hFlen, rem, hr0, hr1, hsum, hterm⟩ :=
    baseFractVal_spec base props (ratInput v).abs hb
  rw [hbyprec, Int.toNat_natCast] at hFlen hterm
  have hnr : ((F.length : ℤ)) ≤ maxFractionalLength base props (ratInput v).abs :=
    le_trans (by exact_mod_cast hFlen) hmfl
  have harr := encodeArray_noRound base props (ratInput v) hb hnr
  rw [encode_of_encodeArray base props (ratInput v) A (dropTrailingZeros F) false harr]
  rw [decode_eq_decodeAux]
  dsimp only
  rw [hmk]
  simp only [Bool.false_eq_true, if_false, zpow_zero, mul_one]
  rw [decodeAux_append, show ((A.length : ℤ) - 1) - (A.length : ℤ) = -1 from by ring]
  rw [decodeAux_dropTrailingZeros]
  have hdecA : decodeAux base ((A.length : ℤ) - 1) A = ((⌊|v|⌋ : ℤ) : ℚ) := by
    rw [decodeAux_eq_foldl base hb]
    have hintval := (baseIntVal_spec base props (ratInput v).abs hb).2.2
    rw [hexpv] at hintval
    rw [← hA] at hintval
    rw [hintval, Int.toNat_of_nonneg (Int.floor_nonneg.mpr (abs_nonneg v))]
  rw [hdecA]
  rw [hexpv] at hsum
  set err : ℚ := rem * (base : ℚ) ^ (-(F.length : ℤ)) with herr
  have hverr : |v| = ((⌊|v|⌋ : ℤ) : ℚ) + decodeAux base (-1) F + err := by
    rw [herr]
    linarith [hsum]
  have herr0 : 0 ≤ err := mul_nonneg hr0 (le_of_lt (zpow_pos hbq _))
  have herrlt : err < (base : ℚ) ^ (-(props.precision : ℤ)) := by
    rcases lt_or_eq_of_le hFlen with hlt | heq
    · rw [herr, hterm hlt, zero_mul]
      exact zpow_pos hbq _
    · rw [herr, show (-(F.length : ℤ)) = (-(props.precision : ℤ)) from by rw [heq]]
      calc rem * (base : ℚ) ^ (-(props.precision : ℤ))
          < 1 * (base : ℚ) ^ (-(props.precision : ℤ)) :=
            mul_lt_mul_of_pos_right hr1 (zpow_pos hbq _)
        _ = _ := one_mul _
  have habsne : (ratInput v).abs ≠ 0 := by
    simp only [ratInput]
    exact abs_ne_zero.mpr hv
  by_cases hzero : isAllZero (A.map some ++ none :: (dropTrailingZeros F).map some) = true
  · rw [if_pos (show (ratInput v).abs ≠ 0
        ∧ isAllZero (A.map some ++ none :: (dropTrailingZeros F).map some) = true from
        ⟨habsne, hzero⟩)]
    simp only [Bool.false_eq_true, if_false, mul_one]
    obtain ⟨hzA, hzF'⟩ := isAllZero_parts A (dropTrailingZeros F) hzero
    have hzF : ∀ d ∈ F, d = 0 := dropTrailingZeros_all_zero F hzF'
    have hA0 : ((⌊|v|⌋ : ℤ) : ℚ) = 0 := by
      rw [← hdecA, decodeAux_all_zero base _ A hzA]
    have hF0 : decodeAux base (-1) F = 0 := decodeAux_all_zero base _ F hzF
    have hveq : |v| = err := by
      rw [hA0, hF0] at hverr
      linarith
    rw [hA0, hF0]
    calc |0 + 0 - v| = |v| := by rw [add_zero, zero_sub, abs_neg]
      _ = err := hveq
      _ < _ := herrlt
  · rw [if_neg (show ¬((ratInput v).abs ≠ 0
        ∧ isAllZero (A.map some ++ none :: (dropTrailingZeros F).map some) = true) from
        fun hc => hzero hc.2)]
    have hm : ((⌊|v|⌋ : ℤ) : ℚ) + decodeAux base (-1) F = |v| - err := by
      linarith [hverr]
    by_cases hvneg : v < 0
    · rw [if_pos (show (ratInput v).isNeg = true from by simp [ratInput, hvneg])]
      have hkey : (((⌊|v|⌋ : ℤ) : ℚ) + decodeAux base (-1) F) * -1 - v = err := by
        rw [hm, abs_of_neg hvneg]
        ring
      rw [hkey, abs_of_nonneg herr0]
      exact herrlt
    · rw [if_neg (show ¬(ratInput v).isNeg = true from by simp [ratInput, hvneg])]
      have hkey : (((⌊|v|⌋ : ℤ) : ℚ) + decodeAux base (-1) F) * 1 - v = -err := by
        rw [hm, abs_of_nonneg (not_lt.mp hvneg)]
        ring
      rw [hkey, abs_neg, abs_of_nonneg herr0]
      exact herrlt

/-- C3: round-trip: for every non-zero rational and base at least 2, encoding
in standard notation with a maximum fraction length at least as large as the
precision and then decoding returns the value within the truncation error
allowed by the precision (`base ^ (-precision)`). -/
theorem claim_C3_roundtrip (base : ℕ) (mode : RoundingMode) (P : ℕ) (M : ℤ) (v : ℚ)
    (hb : 2 ≤ base) (hv : v ≠ 0) (hPM : (P : ℤ) ≤ M) :
    |decode base (encode base ⟨mode, P, some M, Notation.standard⟩ (ratInput v)) - v|
      < (base : ℚ) ^ (-(P : ℤ)) := by
  apply decode_encode_error base ⟨mode, P, some M, Notation.standard⟩ v hb hv rfl
  have hbyprec : maxFractLengthByPrecision base ⟨mode, P, some M, Notation.standard⟩ |v|
      = (P : ℤ) := by
    unfold maxFractLengthByPrecision precisionExponent
    rw [makeExponential_standard _ _ _ rfl]
    simp
  have hm : maxFractionalLength base ⟨mode, P, some M, Notation.standard⟩ |v|
      = min M (maxFractLengthByPrecision base ⟨mode, P, some M, Notation.standard⟩ |v|) :=
    rfl
  rw [hm, hbyprec]
  exact le_min hPM le_rfl

theorem claim_C3_witness :
    2 ≤ 10 ∧ ((1 : ℚ)/4) ≠ 0 ∧ ((3 : ℕ) : ℤ) ≤ (5 : ℤ)
    ∧ |decode 10 (encode 10 ⟨.halfExpand, 3, some 5, .standard⟩ (ratInput (1/4))) - 1/4|
        < (10 : ℚ) ^ (-((3 : ℕ) : ℤ)) :=
  ⟨by norm_num, by norm_num, by norm_num,
    claim_C3_roundtrip 10 .halfExpand 3 5 (1/4) (by norm_num) (by norm_num) (by norm_num)⟩
